import Mathlib

/-!
Verification of the `tally` composition engine.

The definitions below are a shallow embedding of the Python sources:
`src/tally/composition.py` (smart constructor `Composition.__init__`,
`depth`, `to_dict`) and `src/build/lib/tally/composition.py`
(`max_arity`, `from_dict`, `save`/`asdict` record format,
`Composition.random`).
-/

namespace Tally

/-- The three labels of a composition node
(`Label = Enum('Label', ['Horizontal', 'Vertical', 'Empty'])`). -/
inductive Label where
  | Horizontal : Label
  | Vertical : Label
  | Empty : Label
deriving DecidableEq, Repr

/-- A raw composition tree: a label together with a list of sub-terms.
Values produced by the library always go through the smart constructor
`buildCore` below, which normalizes the term list. -/
inductive Composition where
  | node : Label → List Composition → Composition
deriving Repr

mutual

/-- Structural equality of compositions (Python `@dataclass` equality:
same label and termwise-equal children). -/
def Composition.beq : Composition → Composition → Bool
  | .node l ts, .node l' ts' => l == l' && Composition.beqList ts ts'

/-- Structural equality of lists of compositions. -/
def Composition.beqList : List Composition → List Composition → Bool
  | [], [] => true
  | t :: ts, t' :: ts' => Composition.beq t t' && Composition.beqList ts ts'
  | _, _ => false

end

mutual

theorem Composition.beq_iff : ∀ a b : Composition, Composition.beq a b = true ↔ a = b
  | .node l ts, .node l' ts' => by
    simp only [Composition.beq, Bool.and_eq_true, beq_iff_eq, Composition.node.injEq]
    exact and_congr Iff.rfl (Composition.beqList_iff ts ts')

theorem Composition.beqList_iff :
    ∀ as bs : List Composition, Composition.beqList as bs = true ↔ as = bs
  | [], [] => by simp [Composition.beqList]
  | [], _ :: _ => by simp [Composition.beqList]
  | _ :: _, [] => by simp [Composition.beqList]
  | a :: as, b :: bs => by
    simp only [Composition.beqList, Bool.and_eq_true, List.cons.injEq]
    exact and_congr (Composition.beq_iff a b) (Composition.beqList_iff as bs)

end

instance : DecidableEq Composition := fun a b =>
  decidable_of_iff _ (Composition.beq_iff a b)

/-- The label field of a composition. -/
def Composition.label : Composition → Label
  | .node l _ => l

/-- The terms field of a composition. -/
def Composition.terms : Composition → List Composition
  | .node _ ts => ts

/-- The empty composition `e = Composition()`. -/
def e : Composition := .node .Empty []

theorem terms_node (l : Label) (ts : List Composition) :
    (Composition.node l ts).terms = ts := rfl

theorem label_node (l : Label) (ts : List Composition) :
    (Composition.node l ts).label = l := rfl

example : e.label = Label.Empty := rfl
example : (Composition.node .Horizontal [e, e]).terms.length = 2 := by decide

mutual

/-- Number of nodes of a composition (termination measure). -/
def sizeC : Composition → Nat
  | .node _ ts => 1 + sizeL ts

/-- Total number of nodes of a list of compositions. -/
def sizeL : List Composition → Nat
  | [] => 0
  | t :: ts => sizeC t + sizeL ts

end

theorem sizeC_pos : ∀ c : Composition, 0 < sizeC c
  | .node _ ts => by simp [sizeC]

theorem sizeL_eq_zero : ∀ {ts : List Composition}, sizeL ts = 0 → ts = []
  | [], _ => rfl
  | t :: ts, h => by
    exfalso
    have := sizeC_pos t
    simp [sizeL] at h
    omega

theorem sizeC_le_of_mem : ∀ {ts : List Composition} {t : Composition}, t ∈ ts → sizeC t ≤ sizeL ts
  | s :: ts, t, h => by
    rcases List.mem_cons.mp h with rfl | h'
    · simp [sizeL]
    · have := sizeC_le_of_mem h'
      simp [sizeL]
      omega

theorem sizeL_terms_lt (c : Composition) : sizeL c.terms < sizeC c := by
  cases c with
  | node l ts => simp [Composition.terms, sizeC]

theorem sizeC_getD_lt {s : Composition} {i : Nat} (h : i < s.terms.length) :
    sizeC (s.terms.getD i e) < sizeC s := by
  have hm : s.terms.getD i e ∈ s.terms := by
    rw [List.getD_eq_getElem s.terms e h]
    exact List.getElem_mem h
  exact lt_of_le_of_lt (sizeC_le_of_mem hm) (sizeL_terms_lt s)

theorem sizeL_map_le {f : Composition → Composition} :
    ∀ {ts : List Composition}, (∀ s ∈ ts, sizeC (f s) ≤ sizeC s) → sizeL (ts.map f) ≤ sizeL ts
  | [], _ => le_refl _
  | t :: ts, h => by
    have h1 := h t (List.mem_cons_self t ts)
    have h2 := sizeL_map_le (fun s hs => h s (List.mem_cons_of_mem t hs))
    simp only [List.map_cons, sizeL]
    omega

theorem sizeL_map_lt {f : Composition → Composition} {t : Composition}
    {rest : List Composition} (h : ∀ s ∈ t :: rest, sizeC (f s) < sizeC s) :
    sizeL ((t :: rest).map f) < sizeL (t :: rest) := by
  have h1 := h t (List.mem_cons_self t rest)
  have h2 : sizeL (rest.map f) ≤ sizeL rest :=
    sizeL_map_le (fun s hs => le_of_lt (h s (List.mem_cons_of_mem t hs)))
  simp only [List.map_cons, sizeL]
  omega

/-- All children carry the identical label and the identical child count:
the Python `len(labels) == len(lengths) == 1` test on a nonempty `terms`
tuple with head `t` and tail `rest`. -/
def sameShape (t : Composition) (rest : List Composition) : Prop :=
  (∀ s ∈ rest, s.label = t.label) ∧ (∀ s ∈ rest, s.terms.length = t.terms.length)

instance (t : Composition) (rest : List Composition) : Decidable (sameShape t rest) :=
  inferInstanceAs (Decidable (_ ∧ _))

/-- The normalization performed by `Composition.__init__`
(src/tally/composition.py lines 86–96), applied after the shape assert:
when every child carries the same label `L` and the same child count,
(1) `label == L` splices each child's own terms into the node
(associativity flatten), and otherwise (2) the pair
`(label, L) == (Horizontal, Vertical)` rewrites to `Vertical` of
`Horizontal` rows (grid transpose), each row built by a further
constructor call `Horizontal(...)`; in every other case label and terms
are kept as given. -/
def buildCore (label : Label) (ts : List Composition) : Composition :=
  match ts with
  | [] => .node label []
  | t :: rest =>
    if h : sameShape t rest then
      if label = t.label then
        .node label (((t :: rest).map Composition.terms).flatten)
      else if label = .Horizontal ∧ t.label = .Vertical then
        .node .Vertical (List.ofFn (fun i : Fin t.terms.length =>
          buildCore .Horizontal ((t :: rest).map (fun s => s.terms.getD i.val e))))
      else .node label (t :: rest)
    else .node label (t :: rest)
termination_by sizeL ts
decreasing_by
  apply sizeL_map_lt
  intro s hs
  apply sizeC_getD_lt
  rcases List.mem_cons.mp hs with rfl | hs'
  · exact i.isLt
  · rw [h.2 s hs']
    exact i.isLt

theorem buildCore_nil (l : Label) : buildCore l [] = .node l [] := by
  rw [buildCore.eq_def]

theorem buildCore_not_same (l : Label) {t : Composition} {rest : List Composition}
    (h : ¬ sameShape t rest) : buildCore l (t :: rest) = .node l (t :: rest) := by
  rw [buildCore.eq_def]
  simp [h]

theorem buildCore_flatten {l : Label} {t : Composition} {rest : List Composition}
    (h : sameShape t rest) (h2 : l = t.label) :
    buildCore l (t :: rest) = .node l (((t :: rest).map Composition.terms).flatten) := by
  rw [buildCore.eq_def]
  simp [h, h2]

theorem buildCore_transpose {t : Composition} {rest : List Composition}
    (h : sameShape t rest) (h2 : t.label = .Vertical) :
    buildCore .Horizontal (t :: rest) =
      .node .Vertical (List.ofFn (fun i : Fin t.terms.length =>
        buildCore .Horizontal ((t :: rest).map (fun s => s.terms.getD i.val e)))) := by
  rw [buildCore.eq_def]
  have hne : Label.Horizontal ≠ t.label := by rw [h2]; intro hc; cases hc
  simp [h, hne, h2]

theorem buildCore_keep {l : Label} {t : Composition} {rest : List Composition}
    (h2 : l ≠ t.label) (h3 : ¬(l = .Horizontal ∧ t.label = .Vertical)) :
    buildCore l (t :: rest) = .node l (t :: rest) := by
  rw [buildCore.eq_def]
  by_cases h : sameShape t rest
  · simp [h, h2, h3]
  · simp [h]

/-- The constructor precondition (the `assert` in `Composition.__init__`):
nonempty terms with a `Horizontal`/`Vertical` label, or no terms with the
`Empty` label. -/
def validShape (label : Label) (ts : List Composition) : Prop :=
  (ts ≠ [] ∧ (label = .Horizontal ∨ label = .Vertical)) ∨ (ts = [] ∧ label = .Empty)

instance (label : Label) (ts : List Composition) : Decidable (validShape label ts) :=
  inferInstanceAs (Decidable (_ ∨ _))

/-- `Composition(*terms, label=label)`: check the assert, then normalize.
`none` models the `AssertionError` (the spec's `InvalidShape`). -/
def build (label : Label) (ts : List Composition) : Option Composition :=
  if validShape label ts then some (buildCore label ts) else none

/-- Fuel-indexed variant of `buildCore`, structurally recursive so that
the kernel can evaluate it on concrete inputs; `buildCore_eq_buildN`
shows it agrees with `buildCore` whenever the fuel dominates the size of
the term list. -/
def buildN : Nat → Label → List Composition → Composition
  | 0, label, ts => .node label ts
  | fuel + 1, label, ts =>
    match ts with
    | [] => .node label []
    | t :: rest =>
      if sameShape t rest then
        if label = t.label then
          .node label (((t :: rest).map Composition.terms).flatten)
        else if label = .Horizontal ∧ t.label = .Vertical then
          .node .Vertical (List.ofFn (fun i : Fin t.terms.length =>
            buildN fuel .Horizontal ((t :: rest).map (fun s => s.terms.getD i.val e))))
        else .node label (t :: rest)
      else .node label (t :: rest)

theorem buildCore_eq_buildN :
    ∀ n : Nat, ∀ (l : Label) (ts : List Composition), sizeL ts ≤ n →
      buildCore l ts = buildN n l ts := by
  intro n
  induction n with
  | zero =>
    intro l ts h
    have : ts = [] := sizeL_eq_zero (Nat.le_zero.mp h)
    subst this
    rw [buildCore_nil]
    rfl
  | succ n ih =>
    intro l ts h
    match ts with
    | [] => rw [buildCore_nil]; rfl
    | t :: rest =>
      rw [buildCore.eq_def]
      simp only [buildN]
      by_cases hs : sameShape t rest
      · simp only [hs, dif_pos, if_pos]
        by_cases hl : l = t.label
        · simp [hl]
        · simp only [hl, if_neg, if_false]
          by_cases ht : l = .Horizontal ∧ t.label = .Vertical
          · simp only [ht, if_pos]
            have hfun : (fun i : Fin t.terms.length =>
                  buildCore .Horizontal ((t :: rest).map (fun s => s.terms.getD i.val e))) =
                (fun i : Fin t.terms.length =>
                  buildN n .Horizontal ((t :: rest).map (fun s => s.terms.getD i.val e))) := by
              funext i
              apply ih
              have hlt : sizeL ((t :: rest).map (fun s => s.terms.getD i.val e)) <
                  sizeL (t :: rest) := by
                apply sizeL_map_lt
                intro s hsm
                apply sizeC_getD_lt
                rcases List.mem_cons.mp hsm with rfl | hs'
                · exact i.isLt
                · rw [hs.2 s hs']
                  exact i.isLt
              omega
            rw [hfun]
          · simp [ht]
      · simp [hs]

mutual

/-- `Composition.depth`: `max([0] + [t.depth + 1 for t in self.terms])`. -/
def depth : Composition → Nat
  | .node _ ts => depthL ts

/-- `max([0] + [t.depth + 1 for t in ts])` over a list of terms. -/
def depthL : List Composition → Nat
  | [] => 0
  | t :: ts => max (depth t + 1) (depthL ts)

end

mutual

/-- `Composition.max_arity`:
`max([len(self.terms)] + [t.max_arity for t in self.terms])`. -/
def maxArity : Composition → Nat
  | .node _ ts => max ts.length (maxArityL ts)

/-- `max([0] + [t.max_arity for t in ts])` over a list of terms. -/
def maxArityL : List Composition → Nat
  | [] => 0
  | t :: ts => max (maxArity t) (maxArityL ts)

end

mutual

/-- A composition is canonical when every node satisfies the constructor
precondition and is a fixed point of the smart constructor: rebuilding a
node from its own label and terms returns it unchanged. -/
def canonical : Composition → Bool
  | .node l ts =>
    decide (validShape l ts) && decide (buildCore l ts = .node l ts) && canonicalL ts

/-- Every member of the list is canonical. -/
def canonicalL : List Composition → Bool
  | [] => true
  | t :: ts => canonical t && canonicalL ts

end

/-- The compositions reachable through the smart constructor: built from
already-built children passing the shape assert. -/
inductive Built : Composition → Prop where
  | mk (l : Label) (ts : List Composition) :
      (∀ t ∈ ts, Built t) → validShape l ts → Built (buildCore l ts)

theorem Built_e : Built e := by
  have h := Built.mk .Empty [] (by intro t ht; cases ht) (by simp [validShape])
  rwa [buildCore_nil] at h

/-- A JSON tree record `{label: ..., terms: [...]}`; `leaf` models an
object without a `terms` key, `node` an object whose `terms` key is
present (possibly with an empty list). -/
inductive Record where
  | leaf : String → Record
  | node : String → List Record → Record

/-- The label string of a record. -/
def Record.labelStr : Record → String
  | .leaf s => s
  | .node s _ => s

/-- `Label(value)` for the string-valued enum of
src/build/lib/tally/composition.py: `'H'`, `'V'` and `'e'`; any other
string raises `ValueError` (the spec's `MalformedRecord`). -/
def labelOfString : String → Option Label
  | "H" => some .Horizontal
  | "V" => some .Vertical
  | "e" => some .Empty
  | _ => none

/-- The string value of a label (`Label.Horizontal.value == 'H'` etc.). -/
def labelValue : Label → String
  | .Horizontal => "H"
  | .Vertical => "V"
  | .Empty => "e"

/-- Decoding failures: unknown label tag (`ValueError` from `Label(...)`),
missing `terms` key (`KeyError` from `tree['terms']`), or constructor
assert failure (`AssertionError`); the spec folds all three into
`MalformedRecord`. -/
inductive DecodeError where
  | badLabel : DecodeError
  | missingTerms : DecodeError
  | invalidShape : DecodeError
deriving DecidableEq, Repr

mutual

/-- `Composition.from_dict` (src/build/lib/tally/composition.py
line 152): `Label(tree['label'])(*map(Composition.from_dict,
tree['terms']))` — validate the label tag, look up the `terms` key,
decode the children in order, then call the smart constructor. -/
def fromDict : Record → Except DecodeError Composition
  | .leaf s =>
    match labelOfString s with
    | none => .error .badLabel
    | some _ => .error .missingTerms
  | .node s rs =>
    match labelOfString s with
    | none => .error .badLabel
    | some l =>
      match fromDictL rs with
      | .error er => .error er
      | .ok cs =>
        match build l cs with
        | some c => .ok c
        | none => .error .invalidShape

/-- Decode a list of records left to right, propagating the first error. -/
def fromDictL : List Record → Except DecodeError (List Composition)
  | [] => .ok []
  | r :: rs =>
    match fromDict r with
    | .error er => .error er
    | .ok c =>
      match fromDictL rs with
      | .error er => .error er
      | .ok cs => .ok (c :: cs)

end

mutual

/-- `Composition.to_dict` (src/tally/composition.py line 136):
`{'label': 'e'}` when there are no terms (the `terms` key is omitted),
else `{'label': 'H' or 'V', 'terms': [...]}`. -/
def toDict : Composition → Record
  | .node _ [] => .leaf "e"
  | .node l (t :: ts) =>
    .node (if l = .Horizontal then "H" else "V") (toDictL (t :: ts))

/-- `[t.to_dict() for t in ts]`. -/
def toDictL : List Composition → List Record
  | [] => []
  | t :: ts => toDict t :: toDictL ts

end

mutual

/-- The record persisted by `Composition.save`
(src/build/lib/tally/composition.py line 143): `dataclasses.asdict`
through `json` keeps the `terms` key on every node (an empty list for
the empty composition) and stores the enum's string value as the label. -/
def asDict : Composition → Record
  | .node l ts => .node (labelValue l) (asDictL ts)

/-- `asdict` applied to each member of a list of terms. -/
def asDictL : List Composition → List Record
  | [] => []
  | t :: ts => asDict t :: asDictL ts

end

/-- Modelled from the spec: the global `random` module generator driven by
`Composition.random` through `random.seed`, `random.random` and
`random.choice` is Python's deterministic Mersenne Twister. The claims
under verification depend only on the generator being a deterministic
state machine with deterministic seeding, never on its distribution, so a
concrete state over `Nat` stands in for the Twister state. -/
abbrev RNG := Nat

/-- Modelled from the spec: `random.seed(seed)` — deterministic seeding
that overwrites the whole generator state. -/
def seedRNG (s : Int) : RNG := 2 * s.natAbs + (if s < 0 then 1 else 0)

/-- Modelled from the spec: one deterministic step of the generator
state (a linear congruential step stands in for the Twister update). -/
def rngNext (g : RNG) : RNG := (g * 1103515245 + 12345) % 2147483648

/-- Modelled from the spec: `random.random()` — a rational in `[0, 1)`
computed deterministically from the state. -/
def randUnit (g : RNG) : ℚ × RNG := ((g % 1000 : ℚ) / 1000, rngNext g)

/-- Modelled from the spec: `random.choice` on a sequence of `n`
elements — a deterministically chosen index below `n`. -/
def choiceIdx (n : Nat) (g : RNG) : Nat × RNG := (g % n, rngNext g)

/-- Modelled from the spec: Python's deterministic `hash((seed, i,
trial))` used to derive a child seed (integer tuple hashing does not
depend on any global state). -/
def hashTriple (s : Int) (i trial : Nat) : Int :=
  s + 1000003 * ((i : Int) + 1) + 999983 * ((trial : Int) + 1)

/-- `None if seed is None else hash((seed, i, trial))`. -/
def childSeed (seed : Option Int) (i trial : Nat) : Option Int :=
  seed.map (fun s => hashTriple s i trial)

/-- Generation failures: `RuntimeError` after exhausting `max_trials`
(the spec's `GenerationExhausted`), and `IndexError` from
`random.choice` on the empty `range(2, max_arity)`. -/
inductive GenError where
  | exhausted : GenError
  | emptyChoice : GenError
deriving DecidableEq, Repr

/-- The list comprehension generating `n_terms` children inside one
trial of `Composition.random`: each child is produced by the recursive
call with a seed derived from `hash((seed, i, trial))` (or `None` when
the seed is `None`), threading the generator state left to right. -/
def genChildren (child : Option Int → RNG → Except GenError (Composition × RNG))
    (seed : Option Int) (trial : Nat) :
    Nat → Nat → RNG → Except GenError (List Composition × RNG)
  | 0, _, g => .ok ([], g)
  | n + 1, i, g =>
    match child (childSeed seed i trial) g with
    | .error er => .error er
    | .ok (c, g1) =>
      match genChildren child seed trial n (i + 1) g1 with
      | .error er => .error er
      | .ok (cs, g2) => .ok (c :: cs, g2)

/-- The `for trial in range(max_trials)` loop of `Composition.random`
(src/build/lib/tally/composition.py lines 181–191), counting down the
remaining trials: draw a label from `[Horizontal, Vertical]`, then an
arity from `range(2, max_arity)` (an `IndexError` when that range is
empty), generate the children, build the candidate with the smart
constructor, and accept it unless its `max_arity` exceeds the bound or
its `depth` falls short of `min_depth or 0`; a completed loop raises
`RuntimeError`. -/
def trialBody (child : Option Int → RNG → Except GenError (Composition × RNG))
    (seed : Option Int) (mnd : Option Nat) (ka : Nat)
    (retry : Nat → RNG → Except GenError (Composition × RNG))
    (trial : Nat) (g : RNG) : Except GenError (Composition × RNG) :=
  if ka ≤ 2 then .error .emptyChoice
  else
    match genChildren child seed trial (2 + (choiceIdx (ka - 2) (choiceIdx 2 g).2).1) 0
        (choiceIdx (ka - 2) (choiceIdx 2 g).2).2 with
    | .error er => .error er
    | .ok (cs, g3) =>
      if ka < maxArity (buildCore (if (choiceIdx 2 g).1 = 0 then Label.Horizontal
            else Label.Vertical) cs) ∨
          depth (buildCore (if (choiceIdx 2 g).1 = 0 then Label.Horizontal
            else Label.Vertical) cs) < mnd.getD 0
      then retry (trial + 1) g3
      else .ok (buildCore (if (choiceIdx 2 g).1 = 0 then Label.Horizontal
        else Label.Vertical) cs, g3)

/-- The loop itself: run the body with the remaining-trials countdown as
the retry continuation; no trials left raises `RuntimeError`. -/
def trialsLoop (child : Option Int → RNG → Except GenError (Composition × RNG))
    (seed : Option Int) (mnd : Option Nat) (ka : Nat) :
    Nat → Nat → RNG → Except GenError (Composition × RNG)
  | 0, _, _ => .error .exhausted
  | tLeft + 1, trial, g =>
    trialBody child seed mnd ka (trialsLoop child seed mnd ka tLeft) trial g

/-- `Composition.random` (src/build/lib/tally/composition.py
lines 157–192): reseed the generator when a seed is given; return the
empty composition when `max_depth` is zero, or when `min_depth` is unset
or zero and a draw does not exceed `prob_empty`; otherwise run the
bounded trial loop, whose recursive child calls use `max_depth - 1`, no
minimum depth, a derived seed, the same `prob_empty`, and the default
`max_trials = 10` and `max_arity = 3` (the recursive call passes neither
parameter explicitly). -/
def rand (mt : Nat) (pe : ℚ) (ka : Nat) (md : Nat) (mnd : Option Nat)
    (seed : Option Int) (g0 : RNG) : Except GenError (Composition × RNG) :=
  let g := match seed with
    | some s => seedRNG s
    | none => g0
  match md with
  | 0 => .ok (e, g)
  | d + 1 =>
    if mnd.getD 0 = 0 then
      let p := randUnit g
      if p.1 ≤ pe then .ok (e, p.2)
      else trialsLoop (fun sd h => rand 10 pe 3 d none sd h) seed mnd ka mt 0 p.2
    else trialsLoop (fun sd h => rand 10 pe 3 d none sd h) seed mnd ka mt 0 g
termination_by md

/-- Concrete evaluation of the smart constructor through its
fuel-indexed variant. -/
theorem buildCore_eval (l : Label) (ts : List Composition) (n : Nat) (r : Composition)
    (h1 : sizeL ts ≤ n) (h2 : buildN n l ts = r) : buildCore l ts = r :=
  (buildCore_eq_buildN n l ts h1).trans h2

/-- Claim C4: the constructor fails exactly when its precondition is
violated — label `Empty` with a nonempty term list fails, label
`Horizontal` or `Vertical` with an empty term list fails, and every
other case succeeds. -/
theorem C4_invalid_shape (l : Label) (ts : List Composition) :
    build l ts = none ↔
      ((l = .Empty ∧ ts ≠ []) ∨ ((l = .Horizontal ∨ l = .Vertical) ∧ ts = [])) := by
  unfold build validShape
  cases l <;> cases ts <;> simp

/-- Claim C7 (counterexample): decoding `{"label": "e"}` with the
`terms` field omitted does not return the empty composition — it fails
on the unconditional `tree['terms']` lookup (`KeyError`). -/
theorem C7_counterexample : fromDict (Record.leaf "e") = .error .missingTerms := rfl

/-- Claim C7 (amended): `from_record` accepts a record labelled `"e"`
only when the `terms` field is present; with an empty terms list it
returns the `Empty` composition, while a record omitting the field
fails with a `KeyError` rather than decoding. -/
theorem C7_empty_record_amended : fromDict (Record.node "e" []) = .ok e := by
  simp [fromDict, fromDictL, labelOfString, build, validShape, buildCore_nil, e]

/-- Claim C9: the generator is deterministic in its seed — with any
non-`None` seed and identical parameters the result is independent of
the prior global generator state, so two successive calls yield
structurally equal compositions. -/
theorem C9_deterministic (mt : Nat) (pe : ℚ) (ka md : Nat) (mnd : Option Nat)
    (s : Int) (g1 g2 : RNG) :
    rand mt pe ka md mnd (some s) g1 = rand mt pe ka md mnd (some s) g2 := by
  rw [rand.eq_def, rand.eq_def]

/-- The trial loop with no trials left raises `RuntimeError`. -/
theorem trialsLoop_zero (child : Option Int → RNG → Except GenError (Composition × RNG))
    (seed : Option Int) (mnd : Option Nat) (ka trial : Nat) (g : RNG) :
    trialsLoop child seed mnd ka 0 trial g = .error .exhausted := rfl


/-- One unfolding of the trial loop. -/
theorem trialsLoop_succ (child : Option Int → RNG → Except GenError (Composition × RNG))
    (seed : Option Int) (mnd : Option Nat) (ka tLeft trial : Nat) (g : RNG) :
    trialsLoop child seed mnd ka (tLeft + 1) trial g =
      trialBody child seed mnd ka (trialsLoop child seed mnd ka tLeft) trial g := rfl

/-- Claim C10: with `max_arity = 2` and positive `min_depth` and
`max_depth`, the generator can never return a composition: the arity
range `range(2, 2)` is empty, so the very first trial raises
`IndexError` — not the `RuntimeError` that signals an exhausted trial
budget. -/
theorem C10_arity_two_errors (mt : Nat) (pe : ℚ) (d1 d0 : Nat)
    (seed : Option Int) (g : RNG)
    (hmt : 0 < mt) (hd0 : 0 < d0) (hd1 : 0 < d1) :
    rand mt pe 2 d1 (some d0) seed g = .error .emptyChoice := by
  obtain ⟨d, rfl⟩ : ∃ d, d1 = d + 1 := ⟨d1 - 1, by omega⟩
  obtain ⟨t, rfl⟩ : ∃ t, mt = t + 1 := ⟨mt - 1, by omega⟩
  rw [rand.eq_def]
  simp only [Option.getD_some]
  rw [if_neg (by omega)]
  rw [trialsLoop_succ]
  simp [trialBody]

/-- Witness for C10 at the default trial budget and probability. -/
theorem C10_witness : rand 10 (1/4) 2 4 (some 2) (some 42) 0 = .error .emptyChoice :=
  C10_arity_two_errors 10 (1/4) 4 2 (some 42) 0 (by omega) (by omega) (by omega)

/-- A composition accepted by the trial loop satisfies the minimum-depth
and maximum-arity bounds, whatever the child generator produced. -/
theorem trialsLoop_ok_bounds
    (child : Option Int → RNG → Except GenError (Composition × RNG))
    (seed : Option Int) (mnd : Option Nat) (ka : Nat) :
    ∀ (tLeft trial : Nat) (g : RNG) (c : Composition) (g' : RNG),
      trialsLoop child seed mnd ka tLeft trial g = .ok (c, g') →
      mnd.getD 0 ≤ depth c ∧ maxArity c ≤ ka := by
  intro tLeft
  induction tLeft with
  | zero =>
    intro trial g c g' h
    rw [trialsLoop_zero] at h
    cases h
  | succ t ih =>
    intro trial g c g' h
    rw [trialsLoop_succ] at h
    unfold trialBody at h
    by_cases hka : ka ≤ 2
    · rw [if_pos hka] at h
      cases h
    · rw [if_neg hka] at h
      cases hg : genChildren child seed trial
          (2 + (choiceIdx (ka - 2) (choiceIdx 2 g).2).1) 0
          (choiceIdx (ka - 2) (choiceIdx 2 g).2).2 with
      | error er =>
        rw [hg] at h
        dsimp only [] at h
        cases h
      | ok p =>
        obtain ⟨cs, g3⟩ := p
        rw [hg] at h
        dsimp only [] at h
        by_cases hrej : ka < maxArity (buildCore (if (choiceIdx 2 g).1 = 0 then
              Label.Horizontal else Label.Vertical) cs) ∨
            depth (buildCore (if (choiceIdx 2 g).1 = 0 then
              Label.Horizontal else Label.Vertical) cs) < mnd.getD 0
        · rw [if_pos hrej] at h
          exact ih _ _ _ _ h
        · rw [if_neg hrej] at h
          push_neg at hrej
          cases h
          exact ⟨hrej.2, hrej.1⟩

/-- Claim C8: whenever `random(seed, min_depth=d0, max_depth=d1,
max_arity=k)` returns a composition (for valid parameters with
`d0 ≤ d1`), the result has depth at least `d0` and maximum arity at
most `k`. -/
theorem C8_depth_arity_bounds (mt : Nat) (pe : ℚ) (k d1 d0 : Nat)
    (seed : Option Int) (g : RNG) (c : Composition) (g' : RNG)
    (hd : d0 ≤ d1)
    (h : rand mt pe k d1 (some d0) seed g = .ok (c, g')) :
    d0 ≤ depth c ∧ maxArity c ≤ k := by
  rw [rand.eq_def] at h
  cases d1 with
  | zero =>
    simp only [Except.ok.injEq, Prod.mk.injEq] at h
    obtain ⟨rfl, -⟩ := h
    exact ⟨by omega, by simp [maxArity, maxArityL, e]⟩
  | succ d =>
    simp only [Option.getD_some] at h
    by_cases hd0 : d0 = 0
    · rw [if_pos hd0] at h
      split at h
      · simp only [Except.ok.injEq, Prod.mk.injEq] at h
        obtain ⟨rfl, -⟩ := h
        exact ⟨by omega, by simp [maxArity, maxArityL, e]⟩
      · have := trialsLoop_ok_bounds _ _ _ _ _ _ _ _ _ h
        simpa using this
    · rw [if_neg hd0] at h
      have := trialsLoop_ok_bounds _ _ _ _ _ _ _ _ _ h
      simpa using this

/-- Witness for C8: a run with `min_depth = max_depth = 0` returns the
empty composition within the bounds. -/
theorem C8_witness :
    rand 10 (1/4) 3 0 (some 0) (some 5) 0 = .ok (e, seedRNG 5) ∧
      0 ≤ depth e ∧ maxArity e ≤ 3 := by
  have hrun : rand 10 (1/4) 3 0 (some 0) (some 5) 0 = .ok (e, seedRNG 5) := by
    rw [rand.eq_def]
  exact ⟨hrun, C8_depth_arity_bounds 10 (1/4) 3 0 0 (some 5) 0 e (seedRNG 5)
    (le_refl 0) hrun⟩

/-- Claim C6: decoding fails when the record's label tag is not one of
"e", "H", "V" (whatever the rest of the record holds), and when the tag
is recognized but the shape violates the constructor precondition, such
as an "H" tag with an empty terms list. -/
theorem C6_malformed_record :
    (∀ r : Record, labelOfString r.labelStr = none → fromDict r = .error .badLabel) ∧
    (∀ (s : String) (l : Label), labelOfString s = some l → l ≠ .Empty →
      fromDict (Record.node s []) = .error .invalidShape) := by
  constructor
  · intro r h
    cases r with
    | leaf s =>
      unfold fromDict
      rw [show labelOfString s = none from h]
    | node s rs =>
      unfold fromDict
      rw [show labelOfString s = none from h]
  · intro s l hs hl
    unfold fromDict
    rw [hs]
    dsimp only []
    have hb : build l [] = none := by
      unfold build
      rw [if_neg]
      intro hv
      rcases hv with ⟨hne, -⟩ | ⟨-, hE⟩
      · exact hne rfl
      · exact hl hE
    rw [show fromDictL ([] : List Record) = .ok [] from rfl]
    dsimp only []
    rw [hb]

/-- Witness for C6: decoding `{"label": "X"}` and `{"label": "H",
"terms": []}` both fail. -/
theorem C6_witness :
    fromDict (Record.leaf "X") = .error .badLabel ∧
    fromDict (Record.node "H" []) = .error .invalidShape :=
  ⟨C6_malformed_record.1 (Record.leaf "X") rfl,
   C6_malformed_record.2 "H" .Horizontal rfl (by intro hc; cases hc)⟩

/-- Claim C1 (counterexample): with `a = b = V(e,e)` and `c = d = e` the
law fails — on the left the inner build flattens `V(V(e,e),V(e,e))` to
arity 4 while `V(e,e)` has arity 2, so no transpose fires and the result
keeps label `Horizontal`, whereas the right-hand side is a `Vertical`
node. -/
theorem C1_counterexample :
    buildCore .Horizontal
        [buildCore .Vertical [buildCore .Vertical [e, e], buildCore .Vertical [e, e]],
         buildCore .Vertical [e, e]] ≠
      buildCore .Vertical
        [buildCore .Horizontal [buildCore .Vertical [e, e], e],
         buildCore .Horizontal [buildCore .Vertical [e, e], e]] := by
  have h1 : buildCore .Vertical [e, e] = .node .Vertical [e, e] :=
    buildCore_eval _ _ 20 _ (by decide) (by decide)
  rw [h1]
  have h2 : buildCore .Vertical [.node .Vertical [e, e], .node .Vertical [e, e]] =
      .node .Vertical [e, e, e, e] :=
    buildCore_eval _ _ 20 _ (by decide) (by decide)
  rw [h2]
  have h3 : buildCore .Horizontal [.node .Vertical [e, e], e] =
      .node .Horizontal [.node .Vertical [e, e], e] :=
    buildCore_eval _ _ 20 _ (by decide) (by decide)
  rw [h3]
  have h4 : buildCore .Horizontal [.node .Vertical [e, e, e, e], .node .Vertical [e, e]] =
      .node .Horizontal [.node .Vertical [e, e, e, e], .node .Vertical [e, e]] :=
    buildCore_eval _ _ 20 _ (by decide) (by decide)
  rw [h4]
  have h5 : buildCore .Vertical
      [.node .Horizontal [.node .Vertical [e, e], e],
       .node .Horizontal [.node .Vertical [e, e], e]] =
      .node .Vertical
        [.node .Horizontal [.node .Vertical [e, e], e],
         .node .Horizontal [.node .Vertical [e, e], e]] :=
    buildCore_eval _ _ 20 _ (by decide) (by decide)
  rw [h5]
  decide

/-- Claim C2 (counterexample): with `L = Horizontal`, `a = b = V(e,e)`
and `c = d = e` the flatten law fails — the inner build
`H(V(e,e),V(e,e))` transposes to a `Vertical` node, so the outer pair
has mixed labels and is kept with two children, while the right-hand
side keeps the four children unchanged. -/
theorem C2_counterexample :
    buildCore .Horizontal
        [buildCore .Horizontal [buildCore .Vertical [e, e], buildCore .Vertical [e, e]],
         buildCore .Horizontal [e, e]] ≠
      buildCore .Horizontal
        [buildCore .Vertical [e, e], buildCore .Vertical [e, e], e, e] := by
  have h1 : buildCore .Vertical [e, e] = .node .Vertical [e, e] :=
    buildCore_eval _ _ 20 _ (by decide) (by decide)
  rw [h1]
  have h2 : buildCore .Horizontal [.node .Vertical [e, e], .node .Vertical [e, e]] =
      .node .Vertical [.node .Horizontal [e, e], .node .Horizontal [e, e]] :=
    buildCore_eval _ _ 20 _ (by decide) (by decide)
  rw [h2]
  have h3 : buildCore .Horizontal [e, e] = .node .Horizontal [e, e] :=
    buildCore_eval _ _ 20 _ (by decide) (by decide)
  rw [h3]
  have h4 : buildCore .Horizontal
      [.node .Vertical [.node .Horizontal [e, e], .node .Horizontal [e, e]],
       .node .Horizontal [e, e]] =
      .node .Horizontal
        [.node .Vertical [.node .Horizontal [e, e], .node .Horizontal [e, e]],
         .node .Horizontal [e, e]] :=
    buildCore_eval _ _ 20 _ (by decide) (by decide)
  rw [h4]
  have h5 : buildCore .Horizontal
      [.node .Vertical [e, e], .node .Vertical [e, e], e, e] =
      .node .Horizontal [.node .Vertical [e, e], .node .Vertical [e, e], e, e] :=
    buildCore_eval _ _ 20 _ (by decide) (by decide)
  rw [h5]
  decide

/-- Claim C3 (counterexample): the constructor-built value
`build(V, [build(V,[e,e]), e])` is a `Vertical` node with a direct
`Vertical` child — same-label children survive when the siblings' labels
(or arities) are mixed, so invariant I2 fails as stated. -/
theorem C3_counterexample :
    Built (buildCore .Vertical [buildCore .Vertical [e, e], e]) ∧
    (buildCore .Vertical [buildCore .Vertical [e, e], e]).label = .Vertical ∧
    Label.Vertical ∈
      (buildCore .Vertical [buildCore .Vertical [e, e], e]).terms.map Composition.label := by
  have hVee : Built (buildCore .Vertical [e, e]) :=
    Built.mk .Vertical [e, e]
      (by intro t ht
          have : t = e := by
            rcases List.mem_cons.mp ht with rfl | ht2
            · rfl
            · rcases List.mem_cons.mp ht2 with rfl | ht3
              · rfl
              · cases ht3
          rw [this]
          exact Built_e)
      (by simp [validShape])
  refine ⟨?_, ?_, ?_⟩
  · exact Built.mk .Vertical [buildCore .Vertical [e, e], e]
      (by intro t ht
          rcases List.mem_cons.mp ht with rfl | ht2
          · exact hVee
          · rcases List.mem_cons.mp ht2 with rfl | ht3
            · exact Built_e
            · cases ht3)
      (by simp [validShape])
  · have h1 : buildCore .Vertical [e, e] = .node .Vertical [e, e] :=
      buildCore_eval _ _ 20 _ (by decide) (by decide)
    rw [h1]
    have h2 : buildCore .Vertical [.node .Vertical [e, e], e] =
        .node .Vertical [.node .Vertical [e, e], e] :=
      buildCore_eval _ _ 20 _ (by decide) (by decide)
    rw [h2]
    rfl
  · have h1 : buildCore .Vertical [e, e] = .node .Vertical [e, e] :=
      buildCore_eval _ _ 20 _ (by decide) (by decide)
    rw [h1]
    have h2 : buildCore .Vertical [.node .Vertical [e, e], e] =
        .node .Vertical [.node .Vertical [e, e], e] :=
      buildCore_eval _ _ 20 _ (by decide) (by decide)
    rw [h2]
    decide

/-- Claim C5 (counterexample): the round trip fails already at the empty
composition — `to_record(Empty)` is `{"label": "e"}` with the terms key
omitted, and `from_record` fails on it with a `KeyError` instead of
returning `Empty`. -/
theorem C5_counterexample : fromDict (toDict e) = .error .missingTerms := rfl

/-- Two terms both carrying the `Vertical` label with an equal child
count: the only pair shape on which a binary `Vertical` build flattens
(and a binary `Horizontal` build transposes). -/
def vPair (a b : Composition) : Prop :=
  a.label = .Vertical ∧ b.label = .Vertical ∧ a.terms.length = b.terms.length

instance (a b : Composition) : Decidable (vPair a b) :=
  inferInstanceAs (Decidable (_ ∧ _ ∧ _))

theorem sameShape_pair {a b : Composition} (h1 : b.label = a.label)
    (h2 : b.terms.length = a.terms.length) : sameShape a [b] := by
  constructor
  · intro s hs
    rcases List.mem_cons.mp hs with rfl | hs2
    · exact h1
    · cases hs2
  · intro s hs
    rcases List.mem_cons.mp hs with rfl | hs2
    · exact h2
    · cases hs2

/-- A binary `Vertical` build on a pair that is not two equal-arity
`Vertical` terms keeps its two children. -/
theorem buildV_pair_of_not_vPair {a b : Composition} (h : ¬ vPair a b) :
    buildCore .Vertical [a, b] = .node .Vertical [a, b] := by
  by_cases hs : sameShape a [b]
  · by_cases hV : a.label = .Vertical
    · exfalso
      apply h
      refine ⟨hV, ?_, ?_⟩
      · rw [hs.1 b (by simp), hV]
      · rw [hs.2 b (by simp)]
    · exact buildCore_keep (fun hc => hV hc.symm) (fun hc => hV (by rw [hc.2]))
  · exact buildCore_not_same _ hs

/-- If a `Horizontal` build came out labelled `Vertical` then the
transpose fired: the children are a nonempty same-shape run of
`Vertical` terms, and the result is the transposed grid whose arity is
the children's arity. -/
theorem buildCore_H_label_V {ts : List Composition}
    (h : (buildCore .Horizontal ts).label = .Vertical) :
    ∃ t rest, ts = t :: rest ∧ sameShape t rest ∧ t.label = .Vertical ∧
      buildCore .Horizontal ts =
        .node .Vertical (List.ofFn (fun i : Fin t.terms.length =>
          buildCore .Horizontal ((t :: rest).map (fun s => s.terms.getD i.val e)))) := by
  cases ts with
  | nil =>
    rw [buildCore_nil] at h
    cases h
  | cons t rest =>
    by_cases hs : sameShape t rest
    · by_cases hl : Label.Horizontal = t.label
      · rw [buildCore_flatten hs hl] at h
        cases h
      · by_cases hV : t.label = .Vertical
        · exact ⟨t, rest, rfl, hs, hV, buildCore_transpose hs hV⟩
        · rw [buildCore_keep hl (fun hc => hV hc.2)] at h
          cases h
    · rw [buildCore_not_same _ hs] at h
      cases h

/-- Claim C1 (amended): provided neither inner pair consists of two
`Vertical` terms of equal arity (so neither inner build flattens), the
one-directional distributivity law holds:
`build(H, [build(V,[a,b]), build(V,[c,d])])` equals
`build(V, [build(H,[a,c]), build(H,[b,d])])`; and the mirrored
construction — `build(Vertical, ...)` on same-label, same-arity
`Horizontal` children — is returned unchanged with label `Vertical`, no
transpose being performed in that direction. -/
theorem C1_distributivity_amended (a b c d : Composition)
    (hab : ¬ vPair a b) (hcd : ¬ vPair c d) :
    (buildCore .Horizontal [buildCore .Vertical [a, b], buildCore .Vertical [c, d]] =
      buildCore .Vertical [buildCore .Horizontal [a, c], buildCore .Horizontal [b, d]]) ∧
    (∀ (t : Composition) (rest : List Composition), t.label = .Horizontal →
      (∀ s ∈ rest, s.label = .Horizontal) →
      (∀ s ∈ rest, s.terms.length = t.terms.length) →
      buildCore .Vertical (t :: rest) = .node .Vertical (t :: rest)) := by
  constructor
  · rw [buildV_pair_of_not_vPair hab, buildV_pair_of_not_vPair hcd]
    have hsh : sameShape (Composition.node .Vertical [a, b])
        [Composition.node .Vertical [c, d]] := sameShape_pair rfl rfl
    rw [buildCore_transpose hsh rfl]
    have hofn : (List.ofFn (fun i : Fin (Composition.node .Vertical [a, b]).terms.length =>
        buildCore .Horizontal
          (([Composition.node .Vertical [a, b], Composition.node .Vertical [c, d]]).map
            (fun s => s.terms.getD i.val e)))) =
        [buildCore .Horizontal [a, c], buildCore .Horizontal [b, d]] := by
      simp [Composition.terms, List.ofFn_succ, List.getD]
    rw [hofn]
    set X := buildCore .Horizontal [a, c] with hX
    set Y := buildCore .Horizontal [b, d] with hY
    by_cases hs2 : sameShape X [Y]
    · by_cases hXV : X.label = .Vertical
      · exfalso
        obtain ⟨t1, r1, hcons1, hss1, hV1, heq1⟩ := @buildCore_H_label_V [a, c] (hX ▸ hXV)
        have ht1 : t1 = a := by
          injection hcons1 with h1 h2
          exact h1.symm
        have hr1 : r1 = [c] := by
          injection hcons1 with h1 h2
          exact h2.symm
        rw [ht1, hr1] at heq1
        rw [ht1] at hV1
        have hYV : Y.label = .Vertical := by
          rw [hs2.1 Y (by simp)]
          exact hXV
        obtain ⟨t2, r2, hcons2, hss2, hV2, heq2⟩ := @buildCore_H_label_V [b, d] (hY ▸ hYV)
        have ht2 : t2 = b := by
          injection hcons2 with h1 h2
          exact h1.symm
        have hr2 : r2 = [d] := by
          injection hcons2 with h1 h2
          exact h2.symm
        rw [ht2, hr2] at heq2
        rw [ht2] at hV2
        have hlenX : X.terms.length = a.terms.length := by
          rw [hX, heq1, terms_node, List.length_ofFn]
        have hlenY : Y.terms.length = b.terms.length := by
          rw [hY, heq2, terms_node, List.length_ofFn]
        apply hab
        refine ⟨hV1, hV2, ?_⟩
        have hYX := hs2.2 Y (by simp)
        omega
      · rw [buildCore_keep (fun hc => hXV hc.symm) (fun hc => hXV (by rw [hc.2]))]
    · rw [buildCore_not_same _ hs2]
  · intro t rest ht _hall _hlen
    exact buildCore_keep (by rw [ht]; intro hc; cases hc) (by rw [ht]; intro hc; cases hc.1)

/-- Witness for C1: at `a = b = c = d = e` the hypotheses hold and the
two sides agree. -/
theorem C1_witness :
    ¬ vPair e e ∧
    buildCore .Horizontal [buildCore .Vertical [e, e], buildCore .Vertical [e, e]] =
      buildCore .Vertical [buildCore .Horizontal [e, e], buildCore .Horizontal [e, e]] :=
  ⟨by decide, (C1_distributivity_amended e e e e (by decide) (by decide)).1⟩

/-- Claim C2 (amended): the flatten law
`build(L, [build(L,[a,b]), build(L,[c,d])]) = build(L, [a,b,c,d])`
(for `L` in `{Horizontal, Vertical}`) holds provided the two inner
builds return label-`L` nodes with children exactly `[a, b]` and
`[c, d]` — that is, provided neither inner pair itself flattens or
transposes. -/
theorem C2_flatten_amended (L : Label) (a b c d : Composition)
    (_hL : L = .Horizontal ∨ L = .Vertical)
    (hab : buildCore L [a, b] = .node L [a, b])
    (hcd : buildCore L [c, d] = .node L [c, d]) :
    buildCore L [buildCore L [a, b], buildCore L [c, d]] = buildCore L [a, b, c, d] := by
  rw [hab, hcd]
  have hsh : sameShape (Composition.node L [a, b]) [Composition.node L [c, d]] :=
    sameShape_pair rfl rfl
  rw [buildCore_flatten hsh (label_node L [a, b]).symm]
  have hR : buildCore L [a, b, c, d] = .node L [a, b, c, d] := by
    by_cases hs : sameShape a [b, c, d]
    · obtain ⟨hlab, hlen⟩ := hs
      by_cases hM : L = a.label
      · exfalso
        have hsa : sameShape a [b] :=
          sameShape_pair (hlab b (by simp)) (hlen b (by simp))
        rw [buildCore_flatten hsa hM] at hab
        have hterms : a.terms ++ b.terms = [a, b] := by
          have := congrArg Composition.terms hab
          simpa [terms_node, Composition.terms] using this
        have hblen : b.terms.length = a.terms.length := hlen b (by simp)
        have hlen2 : a.terms.length + b.terms.length = 2 := by
          have := congrArg List.length hterms
          simpa using this
        have ha1 : a.terms.length = 1 := by omega
        obtain ⟨x, hx⟩ := List.length_eq_one.mp ha1
        have hxa : x = a := by
          rw [hx] at hterms
          injection hterms with h1 h2
        have hsz := sizeL_terms_lt a
        rw [hx, hxa] at hsz
        simp [sizeL] at hsz
      · by_cases hHV : L = .Horizontal ∧ a.label = .Vertical
        · exfalso
          have hsa : sameShape a [b] :=
            sameShape_pair (hlab b (by simp)) (hlen b (by simp))
          rw [hHV.1] at hab
          rw [buildCore_transpose hsa hHV.2] at hab
          have := congrArg Composition.label hab
          simp [label_node] at this
        · exact buildCore_keep hM hHV
    · exact buildCore_not_same _ hs
  rw [hR]
  simp [Composition.terms]

/-- Witness for C2: at `L = Horizontal` and `a = b = c = d = e` the
hypotheses hold and the law applies. -/
theorem C2_witness :
    buildCore .Horizontal [e, e] = .node .Horizontal [e, e] ∧
    buildCore .Horizontal [buildCore .Horizontal [e, e], buildCore .Horizontal [e, e]] =
      buildCore .Horizontal [e, e, e, e] := by
  have h1 : buildCore .Horizontal [e, e] = .node .Horizontal [e, e] :=
    buildCore_eval _ _ 20 _ (by decide) (by decide)
  exact ⟨h1, C2_flatten_amended .Horizontal e e e e (Or.inl rfl) h1 h1⟩

/-- All direct children carry the node's own label with one common
arity: the shape that triggers the flatten rule. -/
def flatTrigger (c : Composition) : Prop :=
  c.terms ≠ [] ∧ (∀ t ∈ c.terms, t.label = c.label) ∧
    (∀ t ∈ c.terms, t.terms.length = (c.terms.headD e).terms.length)

instance (c : Composition) : Decidable (flatTrigger c) :=
  inferInstanceAs (Decidable (_ ∧ _ ∧ _))

theorem headD_mem {α : Type} {xs : List α} (d : α) (h : xs ≠ []) : xs.headD d ∈ xs := by
  cases xs with
  | nil => exact absurd rfl h
  | cons x xs => simp

/-- Claim C3 (amended): invariant I2 fails as stated (see the
counterexample), but its surviving form holds — no constructor-built
composition has ALL of its direct children carrying the node's own label
with one common arity; the flatten-trigger shape never survives
construction, though an individual same-label child among mixed siblings
can. -/
theorem C3_invariant_amended : ∀ c : Composition, Built c → ¬ flatTrigger c := by
  intro c hb
  induction hb with
  | mk l ts hts hv ih =>
    cases ts with
    | nil =>
      rw [buildCore_nil]
      intro htrig
      exact htrig.1 rfl
    | cons t rest =>
      by_cases hs : sameShape t rest
      · by_cases hl : l = t.label
        · -- flatten branch
          rw [buildCore_flatten hs hl]
          intro htrig
          obtain ⟨hne, hlabs, hlens⟩ := htrig
          rw [terms_node] at hne hlabs hlens
          rw [label_node] at hlabs
          have hex : ∃ s ∈ t :: rest, s.terms ≠ [] := by
            by_contra hno
            push_neg at hno
            apply hne
            apply List.flatten_eq_nil_iff.mpr
            intro ls hls
            obtain ⟨s, hsmem, rfl⟩ := List.mem_map.mp hls
            exact hno s hsmem
          obtain ⟨s, hsmem, hsne⟩ := hex
          apply ih s hsmem
          have hsl : s.label = l := by
            rcases List.mem_cons.mp hsmem with rfl | hsr
            · exact hl.symm
            · rw [hs.1 s hsr]
              exact hl.symm
          have hsubJ : ∀ x ∈ s.terms, x ∈ ((t :: rest).map Composition.terms).flatten := by
            intro x hx
            exact List.mem_flatten.mpr ⟨s.terms, List.mem_map.mpr ⟨s, hsmem, rfl⟩, hx⟩
          refine ⟨hsne, ?_, ?_⟩
          · intro x hx
            rw [hlabs x (hsubJ x hx), hsl]
          · intro x hx
            rw [hlens x (hsubJ x hx), hlens _ (hsubJ _ (headD_mem e hsne))]
        · by_cases hHV : l = .Horizontal ∧ t.label = .Vertical
          · -- transpose branch
            obtain ⟨rfl, hV⟩ := hHV
            rw [buildCore_transpose hs hV]
            intro htrig
            obtain ⟨hne, hlabs, hlens⟩ := htrig
            rw [terms_node] at hne hlabs hlens
            rw [label_node] at hlabs
            have hk : 0 < t.terms.length := by
              rcases Nat.eq_zero_or_pos t.terms.length with h0 | hpos
              · exfalso
                apply hne
                apply List.length_eq_zero.mp
                rw [List.length_ofFn]
                exact h0
              · exact hpos
            -- each grandchild column entry is Vertical with the common row arity
            have hcol : ∀ i (hi : i < t.terms.length),
                (t.terms.getD i e).label = .Vertical ∧
                (t.terms.getD i e).terms.length =
                  (((List.ofFn (fun i : Fin t.terms.length =>
                    buildCore .Horizontal ((t :: rest).map (fun s => s.terms.getD i.val e)))).headD
                      e).terms).length := by
              intro i hi
              have hrow : buildCore .Horizontal ((t :: rest).map (fun s => s.terms.getD i e)) ∈
                  List.ofFn (fun i : Fin t.terms.length =>
                    buildCore .Horizontal ((t :: rest).map (fun s => s.terms.getD i.val e))) :=
                (List.mem_ofFn _ _).mpr ⟨⟨i, hi⟩, rfl⟩
              have hrl := hlabs _ hrow
              obtain ⟨t1, r1, hcons1, hss1, hV1, heq1⟩ := buildCore_H_label_V hrl
              have hmap : (t.terms.getD i e) :: rest.map (fun s => s.terms.getD i e) = t1 :: r1 := by
                simpa using hcons1
              have ht1 : t1 = t.terms.getD i e := by
                injection hmap with h1 h2
                exact h1.symm
              constructor
              · rw [← ht1]
                exact hV1
              · have hlen1 : (buildCore .Horizontal
                    ((t :: rest).map (fun s => s.terms.getD i e))).terms.length =
                    t1.terms.length := by
                  rw [heq1, terms_node, List.length_ofFn]
                have hcommon := hlens _ hrow
                rw [hlen1, ht1] at hcommon
                exact hcommon
          -- now flatTrigger t, contradicting ih t
            apply ih t (by simp)
            refine ⟨?_, ?_, ?_⟩
            · intro h0
              rw [h0] at hk
              simp at hk
            · intro x hx
              obtain ⟨i, hi, hxi⟩ := List.mem_iff_getElem.mp hx
              have hx2 : x = t.terms.getD i e := by
                rw [List.getD_eq_getElem _ _ hi, hxi]
              rw [hx2, (hcol i hi).1, hV]
            · intro x hx
              obtain ⟨i, hi, hxi⟩ := List.mem_iff_getElem.mp hx
              have hx2 : x = t.terms.getD i e := by
                rw [List.getD_eq_getElem _ _ hi, hxi]
              have hhead : t.terms.headD e = t.terms.getD 0 e := by
                cases hterms : t.terms with
                | nil =>
                  rw [hterms] at hk
                  simp at hk
                | cons y ys => simp [List.headD_cons, List.getD_cons_zero]
              rw [hx2, hhead, (hcol i hi).2, (hcol 0 hk).2]
          · -- keep branch (condition holds, no rewrite applies)
            rw [buildCore_keep hl hHV]
            intro htrig
            obtain ⟨hne, hlabs, hlens⟩ := htrig
            rw [terms_node] at hlabs
            rw [label_node] at hlabs
            exact hl (hlabs t (by simp)).symm
      · -- the same-shape condition fails: kept as given
        rw [buildCore_not_same _ hs]
        intro htrig
        obtain ⟨hne, hlabs, hlens⟩ := htrig
        rw [terms_node] at hlabs hlens
        rw [label_node] at hlabs
        apply hs
        constructor
        · intro s hsr
          rw [hlabs s (List.mem_cons_of_mem t hsr), ← hlabs t (by simp)]
        · intro s hsr
          rw [hlens s (List.mem_cons_of_mem t hsr), ← hlens t (by simp)]

/-- Witness for C3: the empty composition is built and trigger-free. -/
theorem C3_witness : ¬ flatTrigger e := C3_invariant_amended e Built_e

/-- `Label(l.value)` recovers the label. -/
theorem labelOfString_labelValue (l : Label) : labelOfString (labelValue l) = some l := by
  cases l <;> rfl

/-- A build on a valid shape succeeds with the normalized value. -/
theorem build_eq_some {l : Label} {ts : List Composition} (h : validShape l ts) :
    build l ts = some (buildCore l ts) := by
  unfold build
  rw [if_pos h]

mutual

/-- Decoding the `asdict` record of a canonical composition returns it
unchanged: the label string decodes to the label, the children decode to
themselves, and rebuilding a canonical node is the identity. -/
theorem fromDict_asDict : ∀ c : Composition, canonical c = true → fromDict (asDict c) = .ok c
  | .node l ts, h => by
    simp only [canonical, Bool.and_eq_true, decide_eq_true_eq] at h
    obtain ⟨⟨hv, hfix⟩, hts⟩ := h
    unfold asDict fromDict
    rw [labelOfString_labelValue]
    rw [fromDictL_asDictL ts hts]
    dsimp only []
    rw [build_eq_some hv]
    dsimp only []
    rw [hfix]

/-- List version of `fromDict_asDict`. -/
theorem fromDictL_asDictL :
    ∀ ts : List Composition, canonicalL ts = true → fromDictL (asDictL ts) = .ok ts
  | [], _ => rfl
  | t :: ts, h => by
    simp only [canonicalL, Bool.and_eq_true] at h
    unfold asDictL fromDictL
    rw [fromDict_asDict t h.1, fromDictL_asDictL ts h.2]

end

/-- The empty composition is canonical. -/
theorem canonical_e : canonical e = true := by
  simp only [e, canonical, canonicalL, Bool.and_eq_true, decide_eq_true_eq]
  refine ⟨⟨?_, ?_⟩, trivial⟩
  · simp [validShape]
  · exact buildCore_nil _

/-- Claim C5 (amended): `from_record` rejects `to_record`'s output on
any tree with an `Empty` leaf, because `to_record` omits the `terms` key
that `from_record` unconditionally reads (see the counterexample); the
round-trip law holds for the record format the library actually persists
(`save`/`asdict`, which always keeps a terms list): decoding it returns
every canonical composition unchanged, including `Empty`; and decoding a
well-formed record that is not in canonical shape succeeds and yields
the canonicalized composition, because `from_record` re-invokes the
smart constructor — e.g. an "H" record of two flattenable "H" children
decodes to `H(e,e,e,e)`. -/
theorem C5_roundtrip_amended :
    (∀ c : Composition, canonical c = true → fromDict (asDict c) = .ok c) ∧
    fromDict (Record.node "H"
        [Record.node "H" [Record.node "e" [], Record.node "e" []],
         Record.node "H" [Record.node "e" [], Record.node "e" []]]) =
      .ok (.node .Horizontal [e, e, e, e]) := by
  constructor
  · exact fun c h => fromDict_asDict c h
  · have h1 : buildCore .Horizontal [.node .Empty [], .node .Empty []] =
        .node .Horizontal [.node .Empty [], .node .Empty []] :=
      buildCore_eval _ _ 20 _ (by decide) (by decide)
    have h2 : buildCore .Horizontal
        [.node .Horizontal [.node .Empty [], .node .Empty []],
         .node .Horizontal [.node .Empty [], .node .Empty []]] =
        .node .Horizontal [.node .Empty [], .node .Empty [], .node .Empty [], .node .Empty []] :=
      buildCore_eval _ _ 20 _ (by decide) (by decide)
    have h0 : buildCore .Empty [] = .node .Empty [] := buildCore_nil _
    simp [fromDict, fromDictL, labelOfString, build, validShape, h0, h1, h2, e]

/-- Witness for C5: the empty composition is canonical and round-trips
through the asdict record. -/
theorem C5_witness : canonical e = true ∧ fromDict (asDict e) = .ok e :=
  ⟨canonical_e, C5_roundtrip_amended.1 e canonical_e⟩

end Tally
